import Mathlib

/-!
Shallow embedding of `scripts/components_assembly.py` (the component-based
assembly orchestrator of the matam repository), together with theorems about
the properties of its specification.

Python dicts are modelled as insertion-ordered association lists
(`List (String × α)`) with an update-in-place insert, matching CPython's
dict semantics (insertion order preserved, updates keep the original slot).
Files are modelled as an association list from path to content string.
The external assembler, the filesystem query `os.path.isfile` and the fasta
reader applied to the assembler's output are oracles collected in `Env`.
-/

namespace ComponentsAssembly

/-- A read from the input fastq stream, as yielded by `read_fastq_file_handle`:
`(header, sequence, quality)`. -/
abbrev FastqRead := String × String × String

/-- One whitespace-split row of the read→component assignment file.  The code
accesses `t[0]` (read id) and `t[2]` (component id or the sentinel `NULL`);
we keep the three accessed-or-skipped leading fields `(t0, t1, t2)`. -/
abbrev AssignRow := String × String × String

/-- A fasta record `(header, sequence)` as yielded by `read_fasta_file_handle`. -/
abbrev FastaRec := String × String

/-- The filesystem's file store: path ↦ content. -/
abbrev FileSys := List (String × String)

/-- Python dict assignment `d[k] = v` on an insertion-ordered association
list: if the key is present its slot is updated in place, otherwise the pair
is appended at the end. -/
def dictInsert (k : String) (v : α) (d : List (String × α)) : List (String × α) :=
  if d.any (fun p => p.1 == k) then
    d.map (fun p => if p.1 == k then (k, v) else p)
  else
    d ++ [(k, v)]

/-- Sequential insertion of a list of pairs, as a dict comprehension does. -/
def insAll (ps : List (String × α)) (d : List (String × α)) : List (String × α) :=
  ps.foldl (fun d p => dictInsert p.1 p.2 d) d

/-- `defaultdict(list)` append `d[k].append(v)`: appends `v` to the bucket of
`k`, creating the bucket (at the end, in insertion order) if absent. -/
def multiAppend (k : String) (v : α) (d : List (String × List α)) :
    List (String × List α) :=
  if d.any (fun p => p.1 == k) then
    d.map (fun p => if p.1 == k then (p.1, p.2 ++ [v]) else p)
  else
    d ++ [(k, [v])]

/-- The read→component table built on source line 22:
`{t[0]:t[2] for t in (l.split() for l in fh) if t[2] != 'NULL'}`. -/
def read_component_dict (rows : List AssignRow) : List (String × String) :=
  rows.foldl (fun d t => if t.2.2 ≠ "NULL" then dictInsert t.1 t.2.2 d else d) []

/-- Source lines 26-33: bucket every fastq read whose id has an entry in the
read→component table into its component's list (`KeyError` ⇒ skip). -/
def extract_reads_by_component (fastq : List FastqRead) (rows : List AssignRow) :
    List (String × List FastqRead) :=
  fastq.foldl
    (fun d r =>
      match List.lookup r.1 (read_component_dict rows) with
      | some c => multiAppend c r d
      | none => d)
    []

/-- Source lines 36-42: the component→LCA table,
`{t[0]:t[1] for t in (l.split() for l in fh) if len(t) == 2}`; a line is a
whitespace-split token list. -/
def extract_lca_by_component (lines : List (List String)) : List (String × String) :=
  lines.foldl
    (fun d t =>
      match t with
      | [a, b] => dictInsert a b d
      | _ => d)
    []

/-- `os.path.join(a, b)` (posix): `b` wins if absolute; a separator is put
between the parts unless `a` is empty or already ends with one. -/
def pathJoin (a b : String) : String :=
  if b.data.head? = some '/' then b
  else if a = "" ∨ a.data.getLast? = some '/' then a ++ b
  else a ++ "/" ++ b

/-- The fastq record written for one read on source line 68:
`'@{h}\n{seq}\n+\n{qual}\n'`. -/
def fastqRecord (r : FastqRead) : String :=
  "@" ++ r.1 ++ "\n" ++ r.2.1 ++ "\n+\n" ++ r.2.2 ++ "\n"

/-- The per-component fastq file name of source line 61:
`"component%s_reads.fq" % component_id`. -/
def component_fq_name (cid : String) : String :=
  "component" ++ cid ++ "_reads.fq"

/-- Source lines 44-69 (`save_components`): write each component's reads to
`directory/component<id>_reads.fq` (mode `'w'`, so the whole content is the
concatenation of the records) and return the component→path dict.  The
`os.mkdir`/`FileExistsError: pass` prologue only ensures the directory exists
and does not touch the file store. -/
def save_components (buckets : List (String × List FastqRead)) (directory : String)
    (fs : FileSys) : List (String × String) × FileSys :=
  buckets.foldl
    (fun acc p =>
      let fqPath := pathJoin directory (component_fq_name p.1)
      (dictInsert p.1 fqPath acc.1,
       dictInsert fqPath (String.join (p.2.map fastqRecord)) acc.2))
    ([], fs)

/-- Scanning a reversed basename towards the front: is there a non-dot
character before the directory separator?  `os.path.splitext` recognises an
extension dot only if the basename has a non-dot character before it. -/
def extValidRev : List Char → Bool
  | [] => false
  | c :: rest => if c = '/' then false else if c = '.' then extValidRev rest else true

/-- Core of `os.path.splitext` on the reversed character list: the reversed
root, when the path has an extension (split at the last dot of the basename,
unless that dot lies in the basename's all-dots leading run). -/
def splitextRootRev : List Char → Option (List Char)
  | [] => none
  | c :: rest =>
    if c = '/' then none
    else if c = '.' then (if extValidRev rest then some rest else none)
    else splitextRootRev rest

/-- `os.path.splitext(p)[0]`. -/
def splitext_root (p : String) : String :=
  match splitextRootRev p.data.reverse with
  | some r => ⟨r.reverse⟩
  | none => p

/-- Source lines 130-135: workdir derived from the fastq file name,
`splitext(fq)[0] + '_assembly_wkdir'`. -/
def get_workdir (fq : String) : String :=
  splitext_root fq ++ "_assembly_wkdir"

/-- `p` lies strictly below directory `d`. -/
def isUnder (d p : String) : Bool :=
  (d ++ "/").data.isPrefixOf p.data

/-- Source lines 80-83 modelled on a set of existing paths: if the workdir
exists, `shutil.rmtree` removes it and everything below it; then `os.mkdir`
recreates it. -/
def prepare_workdir (fs : List String) (d : String) : List String :=
  (if fs.contains d then fs.filter (fun p => !(p == d || isUnder d p)) else fs) ++ [d]

/-- Oracles for the effects outside this module: `os.path.isfile`, the exit
code of the shell command run by `subprocess.call`, and what
`read_fasta_file_handle` yields for an assembly output path. -/
structure Env where
  isFile : String → Bool
  exitCode : String → Int
  fastaContent : String → List FastaRec

/-- The shell command line built on source lines 89-97. -/
def assembly_cmd_line (sga_wrapper sga_bin in_fastq workdir read_correction : String)
    (cpu : Nat) : String :=
  let logfile := pathJoin workdir "assembly.log"
  let tmp_dir := pathJoin workdir "tmp"
  let fasta_file := pathJoin workdir "assembly.fasta"
  "echo \"component #" ++ in_fastq ++ "\" >> " ++ logfile ++ " && "
    ++ sga_wrapper ++ " -i " ++ in_fastq
    ++ " -o " ++ fasta_file ++ " --sga_bin " ++ sga_bin
    ++ (if read_correction = "no" ∨ read_correction = "auto" then " --no_correction" else "")
    ++ " --cpu " ++ toString cpu
    ++ " --tmp_dir " ++ tmp_dir
    ++ " >> " ++ logfile ++ " 2>&1"

/-- Source lines 72-106 (`assemble_component`), control flow only (the
workdir preparation of lines 80-83 is `prepare_workdir`): `sys.exit` when the
input read file is missing or the assembler exits non-zero; otherwise the
path of the produced fasta file is returned. -/
def assemble_component (env : Env) (sga_wrapper sga_bin in_fastq workdir
    read_correction : String) (cpu : Nat) : Except String String :=
  if env.isFile in_fastq = false then
    Except.error ("Can't assemble " ++ in_fastq)
  else if env.exitCode (assembly_cmd_line sga_wrapper sga_bin in_fastq workdir
      read_correction cpu) ≠ 0 then
    Except.error "Assembly failed"
  else
    Except.ok (pathJoin workdir "assembly.fasta")

/-- `multiprocessing.Pool.starmap` over the task list: results are collected
in submission order; a task that calls `sys.exit` aborts the pipeline. -/
def starmap (f : α → Except String β) : List α → Except String (List β)
  | [] => Except.ok []
  | a :: l =>
    match f a with
    | Except.error e => Except.error e
    | Except.ok b =>
      match starmap f l with
      | Except.error e => Except.error e
      | Except.ok bl => Except.ok (b :: bl)

/-- One merged contig record as written on source lines 124-125:
`>{index} component={cid} lca={lca}\n{seq}\n`. -/
structure Contig where
  index : Nat
  component : String
  lca : String
  seq : String
deriving Repr, DecidableEq

/-- Inner loop of source lines 120-125: for each fasta record of one
component, emit a numbered contig when the sequence is non-empty. -/
def emit_component (cid lca : String) (recs : List FastaRec) (count : Nat) :
    Nat × List Contig :=
  match recs with
  | [] => (count, [])
  | r :: rest =>
    if r.2.length ≠ 0 then
      let next := emit_component cid lca rest (count + 1)
      (next.1, ⟨count + 1, cid, lca, r.2⟩ :: next.2)
    else
      emit_component cid lca rest count

/-- Outer loop of source lines 114-125: `component_lca` starts as `'NULL'`
and is reassigned only when the current component is present in the LCA
table; the running contig counter is threaded through. -/
def concat_loop (lcaDict : List (String × String))
    (assembled : List (String × List FastaRec)) (component_lca : String)
    (count : Nat) : List Contig :=
  match assembled with
  | [] => []
  | p :: rest =>
    let lca :=
      match List.lookup p.1 lcaDict with
      | some v => v
      | none => component_lca
    let emitted := emit_component p.1 lca p.2 count
    emitted.2 ++ concat_loop lcaDict rest lca emitted.1

/-- Source lines 109-127 (`concat_components_fasta_with_lca`), as the list of
contig records written to the (freshly truncated) merged output file. -/
def concat_components_fasta_with_lca (assembled : List (String × List FastaRec))
    (lcaDict : List (String × String)) : List Contig :=
  concat_loop lcaDict assembled "NULL" 0

/-- Source lines 153-163: build the per-component task parameters in dict
order, run them through the pool, and zip the component ids with the
resulting fasta paths. -/
def assembled_components_fasta (env : Env) (sga_wrapper sga_bin read_correction : String)
    (components_reads_fq : List (String × String)) :
    Except String (List (String × String)) :=
  match starmap
      (fun fq => assemble_component env sga_wrapper sga_bin fq (get_workdir fq)
        read_correction 1)
      (components_reads_fq.map (fun p => p.2)) with
  | Except.error e => Except.error e
  | Except.ok fasta_list =>
    Except.ok ((components_reads_fq.map (fun p => p.1)).zip fasta_list)

/-- Source lines 138-168 (`assemble_all_components`): partition, materialize,
assemble, and merge.  The merged contig list is produced only when every
assembly task succeeded. -/
def assemble_all_components (env : Env) (sga_wrapper sga_bin : String)
    (fastq : List FastqRead) (rows : List AssignRow) (lcaLines : List (List String))
    (workdir read_correction : String) (fs : FileSys) : Except String (List Contig) :=
  let components_dict := extract_reads_by_component fastq rows
  let components_reads_fq := (save_components components_dict workdir fs).1
  match assembled_components_fasta env sga_wrapper sga_bin read_correction
      components_reads_fq with
  | Except.error e => Except.error e
  | Except.ok assembled =>
    let lca_dict := extract_lca_by_component lcaLines
    Except.ok (concat_components_fasta_with_lca
      (assembled.map (fun p => (p.1, env.fastaContent p.2))) lca_dict)

/-- The prefix `os.path.join` puts in front of a relative second argument. -/
def dirPre (a : String) : String :=
  if a = "" ∨ a.data.getLast? = some '/' then a else a ++ "/"

/-- An environment in which every input file exists, every assembler run
exits with status 0, and every assembly output holds one record. -/
def envOk : Env :=
  { isFile := fun _ => true
    exitCode := fun _ => 0
    fastaContent := fun _ => [("h", "ACGT")] }

/-! ### Association-list lemmas for the Python-dict model -/

theorem lookup_append (k : String) (l₁ l₂ : List (String × α)) :
    List.lookup k (l₁ ++ l₂) =
      match List.lookup k l₁ with
      | some v => some v
      | none => List.lookup k l₂ := by
  induction l₁ with
  | nil => simp
  | cons p rest ih =>
    rcases p with ⟨a, b⟩
    rw [List.cons_append, List.lookup_cons, List.lookup_cons]
    cases h : k == a
    · simp only [h]
      exact ih
    · simp [h]

theorem any_key_iff {k : String} {d : List (String × α)} :
    d.any (fun p => p.1 == k) = true ↔ k ∈ d.map (fun p => p.1) := by
  simp [List.any_eq_true, List.mem_map]

theorem lookup_eq_none_of_not_key {k : String} {d : List (String × α)}
    (h : k ∉ d.map (fun p => p.1)) : List.lookup k d = none := by
  induction d with
  | nil => rfl
  | cons p rest ih =>
    simp only [List.map_cons, List.mem_cons, not_or] at h
    simp [List.lookup, beq_eq_false_iff_ne.2 h.1, ih h.2]

theorem lookup_replace_ne {c k : String} (v : α) (d : List (String × α)) (hck : c ≠ k) :
    List.lookup c (d.map (fun p => if p.1 == k then (k, v) else p)) = List.lookup c d := by
  induction d with
  | nil => rfl
  | cons p rest ih =>
    rcases p with ⟨a, b⟩
    by_cases hp : a = k
    · subst hp
      simp only [List.map_cons, beq_self_eq_true, if_true]
      rw [List.lookup_cons, List.lookup_cons]
      simp only [beq_eq_false_iff_ne.2 hck]
      exact ih
    · simp only [List.map_cons, beq_eq_false_iff_ne.2 hp, Bool.false_eq_true, if_false]
      rw [List.lookup_cons, List.lookup_cons]
      cases hc : c == a
      · simp only [hc]
        exact ih
      · simp [hc]

theorem lookup_replace_self {k : String} (v : α) {d : List (String × α)}
    (h : d.any (fun p => p.1 == k) = true) :
    List.lookup k (d.map (fun p => if p.1 == k then (k, v) else p)) = some v := by
  induction d with
  | nil => simp at h
  | cons p rest ih =>
    rcases p with ⟨a, b⟩
    by_cases hp : a = k
    · subst hp
      simp only [List.map_cons, beq_self_eq_true, if_true]
      exact List.lookup_cons_self
    · simp only [List.any_cons, Bool.or_eq_true, beq_iff_eq, hp, false_or] at h
      simp only [List.map_cons, beq_eq_false_iff_ne.2 hp, Bool.false_eq_true, if_false]
      rw [List.lookup_cons]
      simp only [beq_eq_false_iff_ne.2 (fun he => hp he.symm)]
      exact ih h

theorem lookup_dictInsert (c k : String) (v : α) (d : List (String × α)) :
    List.lookup c (dictInsert k v d) = if c = k then some v else List.lookup c d := by
  unfold dictInsert
  cases h : d.any (fun p => p.1 == k) with
  | true =>
    rw [if_pos rfl]
    by_cases hck : c = k
    · subst hck
      rw [if_pos rfl]
      exact lookup_replace_self v h
    · rw [if_neg hck]
      exact lookup_replace_ne v d hck
  | false =>
    rw [if_neg Bool.false_ne_true, lookup_append]
    by_cases hck : c = k
    · subst hck
      rw [lookup_eq_none_of_not_key
        (fun hm => Bool.false_ne_true (h.symm.trans (any_key_iff.2 hm)))]
      simp
    · rw [if_neg hck]
      cases hc : List.lookup c d
      · simp [hc, beq_eq_false_iff_ne.2 hck, List.lookup_cons]
      · rfl

theorem lookup_insAll (ps : List (String × α)) (d : List (String × α)) (k : String) :
    List.lookup k (insAll ps d) =
      match List.lookup k ps.reverse with
      | some v => some v
      | none => List.lookup k d := by
  induction ps generalizing d with
  | nil => simp [insAll]
  | cons p rest ih =>
    have hstep : insAll (p :: rest) d = insAll rest (dictInsert p.1 p.2 d) := rfl
    rw [hstep, ih, List.reverse_cons, lookup_append]
    cases h : List.lookup k rest.reverse with
    | none =>
      simp only [h]
      rcases p with ⟨a, b⟩
      rw [lookup_dictInsert]
      by_cases hk : k = a
      · subst hk
        simp
      · simp [hk, beq_eq_false_iff_ne.2 hk, List.lookup_cons]
    | some v =>
      simp only [h]

theorem foldl_dictInsert_filterMap (g : α → Option (String × β))
    (step : List (String × β) → α → List (String × β))
    (hstep : ∀ d x, step d x = (g x).elim d (fun p => dictInsert p.1 p.2 d))
    (l : List α) (d : List (String × β)) :
    l.foldl step d = insAll (l.filterMap g) d := by
  induction l generalizing d with
  | nil => simp [insAll]
  | cons x rest ih =>
    rw [List.foldl_cons, hstep]
    cases h : g x <;>
      simp [List.filterMap_cons, h, ih, insAll, Option.elim]

/-! ### String lemmas -/

theorem str_append_assoc (a b c : String) : a ++ b ++ c = a ++ (b ++ c) :=
  String.ext (by simp)

theorem str_affix_inj {a b s t : String} (h : a ++ s ++ b = a ++ t ++ b) : s = t := by
  have hd : a.data ++ s.data ++ b.data = a.data ++ t.data ++ b.data := by
    have hdata := congrArg String.data h
    simpa using hdata
  have hd' : a.data ++ (s.data ++ b.data) = a.data ++ (t.data ++ b.data) := by
    simpa [List.append_assoc] using hd
  exact String.ext (List.append_cancel_right (List.append_cancel_left hd'))

/-! ### `multiAppend` (`defaultdict(list)`) lemmas -/

theorem lookup_bucket_replace_ne {c k : String} (v : α) (d : List (String × List α))
    (hck : c ≠ k) :
    List.lookup c (d.map (fun p => if p.1 == k then (p.1, p.2 ++ [v]) else p)) =
      List.lookup c d := by
  induction d with
  | nil => rfl
  | cons p rest ih =>
    rcases p with ⟨a, b⟩
    by_cases hp : a = k
    · subst hp
      simp only [List.map_cons, beq_self_eq_true, if_true]
      rw [List.lookup_cons, List.lookup_cons]
      simp only [beq_eq_false_iff_ne.2 hck]
      exact ih
    · simp only [List.map_cons, beq_eq_false_iff_ne.2 hp, Bool.false_eq_true, if_false]
      rw [List.lookup_cons, List.lookup_cons]
      cases hc : c == a
      · simp only [hc]
        exact ih
      · simp [hc]

theorem lookup_bucket_replace_self {k : String} (v : α) {d : List (String × List α)}
    (h : d.any (fun p => p.1 == k) = true) :
    List.lookup k (d.map (fun p => if p.1 == k then (p.1, p.2 ++ [v]) else p)) =
      some (((List.lookup k d).getD []) ++ [v]) := by
  induction d with
  | nil => simp at h
  | cons p rest ih =>
    rcases p with ⟨a, b⟩
    by_cases hp : a = k
    · subst hp
      simp only [List.map_cons, beq_self_eq_true, if_true]
      simp
    · simp only [List.any_cons, Bool.or_eq_true, beq_iff_eq, hp, false_or] at h
      simp only [List.map_cons, beq_eq_false_iff_ne.2 hp, Bool.false_eq_true, if_false]
      rw [List.lookup_cons, List.lookup_cons]
      simp only [beq_eq_false_iff_ne.2 (fun he => hp he.symm)]
      exact ih h

theorem lookup_multiAppend (c k : String) (v : α) (d : List (String × List α)) :
    List.lookup c (multiAppend k v d) =
      if c = k then some (((List.lookup k d).getD []) ++ [v]) else List.lookup c d := by
  unfold multiAppend
  cases h : d.any (fun p => p.1 == k) with
  | true =>
    rw [if_pos rfl]
    by_cases hck : c = k
    · subst hck
      rw [if_pos rfl]
      exact lookup_bucket_replace_self v h
    · rw [if_neg hck]
      exact lookup_bucket_replace_ne v d hck
  | false =>
    rw [if_neg Bool.false_ne_true, lookup_append]
    have hnone : List.lookup k d = none :=
      lookup_eq_none_of_not_key
        (fun hm => Bool.false_ne_true (h.symm.trans (any_key_iff.2 hm)))
    by_cases hck : c = k
    · subst hck
      rw [hnone]
      simp
    · rw [if_neg hck]
      cases hc : List.lookup c d
      · simp [hc, beq_eq_false_iff_ne.2 hck, List.lookup_cons]
      · rfl

theorem multiAppend_keys (k : String) (v : α) (d : List (String × List α)) :
    (multiAppend k v d).map (fun p => p.1) =
      if d.any (fun p => p.1 == k) then d.map (fun p => p.1)
      else d.map (fun p => p.1) ++ [k] := by
  unfold multiAppend
  cases h : d.any (fun p => p.1 == k) with
  | true =>
    rw [if_pos rfl, if_pos rfl, List.map_map]
    apply List.map_congr_left
    intro p _
    simp only [Function.comp_apply]
    split <;> rfl
  | false =>
    rw [if_neg Bool.false_ne_true, if_neg Bool.false_ne_true]
    simp

/-! ### Characterizations of the loader folds -/

theorem read_component_dict_eq (rows : List AssignRow) :
    read_component_dict rows =
      insAll (rows.filterMap
        (fun t => if t.2.2 = "NULL" then none else some (t.1, t.2.2))) [] := by
  rw [read_component_dict]
  refine foldl_dictInsert_filterMap _ _ ?_ rows []
  intro d t
  by_cases h : t.2.2 = "NULL" <;> simp [h, Option.elim]

theorem extract_lca_eq (lines : List (List String)) :
    extract_lca_by_component lines =
      insAll (lines.filterMap
        (fun t => match t with | [a, b] => some (a, b) | _ => none)) [] := by
  rw [extract_lca_by_component]
  refine foldl_dictInsert_filterMap _ _ ?_ lines []
  intro d t
  match t with
  | [] => rfl
  | [a] => rfl
  | [a, b] => rfl
  | a :: b :: c :: rest => rfl

theorem bucket_fold_lookup (rd : List (String × String)) (fastq : List FastqRead) :
    ∀ (acc : List (String × List FastqRead)) (c : String),
      List.lookup c (fastq.foldl
        (fun d r =>
          match List.lookup r.1 rd with
          | some k => multiAppend k r d
          | none => d) acc) =
      (if fastq.filter (fun r => List.lookup r.1 rd == some c) = []
       then List.lookup c acc
       else some (((List.lookup c acc).getD []) ++
         fastq.filter (fun r => List.lookup r.1 rd == some c))) := by
  induction fastq with
  | nil => intro acc c; simp
  | cons r rest ih =>
    intro acc c
    rw [List.foldl_cons]
    cases hr : List.lookup r.1 rd with
    | none =>
      simp only [hr]
      rw [ih]
      have hpred : (List.lookup r.1 rd == some c) = false := by
        rw [hr]; rfl
      rw [List.filter_cons, hpred]
      simp
    | some k =>
      simp only [hr]
      rw [ih]
      by_cases hck : c = k
      · subst hck
        have hpred : (List.lookup r.1 rd == some c) = true := by
          rw [hr]; simp
        rw [List.filter_cons, hpred, if_pos rfl]
        have hacc : List.lookup c (multiAppend c r acc) =
            some (((List.lookup c acc).getD []) ++ [r]) := by
          rw [lookup_multiAppend, if_pos rfl]
        by_cases hrest : rest.filter (fun r => List.lookup r.1 rd == some c) = []
        · rw [if_pos hrest, hrest, if_neg (by simp), hacc]
        · rw [if_neg hrest, if_neg (by simp), hacc]
          simp
      · have hpred : (List.lookup r.1 rd == some c) = false := by
          rw [hr]
          exact beq_eq_false_iff_ne.2 (fun he => hck (Option.some.inj he).symm)
        rw [List.filter_cons, hpred]
        simp only [Bool.false_eq_true, if_false]
        rw [lookup_multiAppend, if_neg hck]

theorem extract_reads_lookup (fastq : List FastqRead) (rows : List AssignRow) (c : String) :
    List.lookup c (extract_reads_by_component fastq rows) =
      (if fastq.filter
            (fun r => List.lookup r.1 (read_component_dict rows) == some c) = []
       then none
       else some (fastq.filter
         (fun r => List.lookup r.1 (read_component_dict rows) == some c))) := by
  have h := bucket_fold_lookup (read_component_dict rows) fastq [] c
  rw [extract_reads_by_component]
  simpa using h

theorem bucket_fold_keys_nodup (rd : List (String × String)) (fastq : List FastqRead) :
    ∀ acc : List (String × List FastqRead), ((acc.map (fun p => p.1)).Nodup) →
      (((fastq.foldl
        (fun d r =>
          match List.lookup r.1 rd with
          | some k => multiAppend k r d
          | none => d) acc).map (fun p => p.1)).Nodup) := by
  induction fastq with
  | nil => intro acc h; exact h
  | cons r rest ih =>
    intro acc h
    rw [List.foldl_cons]
    cases hr : List.lookup r.1 rd with
    | none =>
      simp only [hr]
      exact ih acc h
    | some k =>
      simp only [hr]
      apply ih
      rw [multiAppend_keys]
      cases ha : acc.any (fun p => p.1 == k) with
      | true =>
        rw [if_pos rfl]
        exact h
      | false =>
        rw [if_neg Bool.false_ne_true]
        have hk : k ∉ acc.map (fun p => p.1) :=
          fun hm => Bool.false_ne_true (ha.symm.trans (any_key_iff.2 hm))
        simp [List.nodup_append, h, hk]

theorem extract_keys_nodup (fastq : List FastqRead) (rows : List AssignRow) :
    (((extract_reads_by_component fastq rows).map (fun p => p.1)).Nodup) :=
  bucket_fold_keys_nodup (read_component_dict rows) fastq [] (by simp)

theorem lookup_reverse_of_nodup {d : List (String × α)}
    (h : ((d.map (fun p => p.1)).Nodup)) (c : String) :
    List.lookup c d.reverse = List.lookup c d := by
  induction d with
  | nil => rfl
  | cons p rest ih =>
    rcases p with ⟨a, b⟩
    simp only [List.map_cons, List.nodup_cons] at h
    rw [List.reverse_cons, lookup_append]
    by_cases hc : c = a
    · subst hc
      have h1 : List.lookup c rest.reverse = none := by
        apply lookup_eq_none_of_not_key
        simpa [List.map_reverse, List.mem_reverse] using h.1
      rw [h1]
      simp
    · have hrec := ih h.2
      cases h2 : List.lookup c rest.reverse with
      | none =>
        simp only [h2]
        rw [h2] at hrec
        simp only [List.lookup_cons, beq_eq_false_iff_ne.2 hc]
        exact hrec
      | some v =>
        simp only [h2]
        rw [h2] at hrec
        simp only [List.lookup_cons, beq_eq_false_iff_ne.2 hc]
        exact hrec

theorem lookup_map_keyed {pf : String → String} (hinj : ∀ x y, pf x = pf y → x = y)
    (g : β → γ) (d : List (String × β)) (c : String) :
    List.lookup (pf c) (d.map (fun p => (pf p.1, g p.2))) = (List.lookup c d).map g := by
  induction d with
  | nil => rfl
  | cons p rest ih =>
    rcases p with ⟨a, b⟩
    rw [List.map_cons, List.lookup_cons, List.lookup_cons]
    by_cases hc : c = a
    · subst hc
      simp
    · have h1 : (pf c == pf a) = false :=
        beq_eq_false_iff_ne.2 (fun he => hc (hinj _ _ he))
      simp [h1, beq_eq_false_iff_ne.2 hc, ih]

/-! ### `save_components` decomposition and path computations -/

theorem save_components_fold (b : List (String × List FastqRead)) (dir : String) :
    ∀ (m : List (String × String)) (f : FileSys),
      b.foldl
        (fun acc p =>
          let fqPath := pathJoin dir (component_fq_name p.1)
          (dictInsert p.1 fqPath acc.1,
           dictInsert fqPath (String.join (p.2.map fastqRecord)) acc.2)) (m, f)
      = (insAll (b.map (fun p => (p.1, pathJoin dir (component_fq_name p.1)))) m,
         insAll (b.map (fun p =>
           (pathJoin dir (component_fq_name p.1), String.join (p.2.map fastqRecord)))) f) := by
  induction b with
  | nil =>
    intro m f
    simp [insAll]
  | cons p rest ih =>
    intro m f
    rw [List.foldl_cons]
    exact ih _ _

theorem save_components_eq (b : List (String × List FastqRead)) (dir : String)
    (fs : FileSys) :
    save_components b dir fs =
      (insAll (b.map (fun p => (p.1, pathJoin dir (component_fq_name p.1)))) [],
       insAll (b.map (fun p =>
         (pathJoin dir (component_fq_name p.1), String.join (p.2.map fastqRecord)))) fs) := by
  rw [save_components]
  exact save_components_fold b dir [] fs

theorem str_concat4_inj {A C : String} {x y : String}
    (h : A ++ (C ++ x ++ "_reads.fq") = A ++ (C ++ y ++ "_reads.fq")) : x = y := by
  have hd := congrArg String.data h
  simp only [String.data_append, List.append_assoc] at hd
  exact String.ext
    (List.append_cancel_right (List.append_cancel_left (List.append_cancel_left hd)))

theorem str_concat5_inj {A B C D : String} {x y : String}
    (h : A ++ B ++ x ++ C ++ D = A ++ B ++ y ++ C ++ D) : x = y := by
  have hd := congrArg String.data h
  simp only [String.data_append, List.append_assoc] at hd
  exact String.ext
    (List.append_cancel_right (List.append_cancel_left (List.append_cancel_left hd)))

theorem splitext_root_reads_fq (s : String) :
    splitext_root (s ++ "_reads.fq") = s ++ "_reads" := by
  rw [splitext_root]
  have hrev : (s ++ "_reads.fq").data.reverse
      = 'q' :: 'f' :: '.' :: 's' :: 'd' :: 'a' :: 'e' :: 'r' :: '_' :: s.data.reverse := by
    rw [String.data_append, List.reverse_append]
    rfl
  rw [hrev]
  simp only [splitextRootRev, extValidRev]
  norm_num
  apply String.ext
  simp [String.data_append]

theorem pathJoin_fqname (dir cid : String) :
    pathJoin dir (component_fq_name cid) = dirPre dir ++ component_fq_name cid := by
  have hhead : (component_fq_name cid).data.head? = some 'c' := by
    rw [component_fq_name, String.data_append, String.data_append, List.append_assoc]
    rfl
  rw [pathJoin, dirPre, hhead]
  rw [if_neg (by decide : ¬ (some 'c' = some '/'))]
  split <;> rfl

theorem get_workdir_fqname (dir cid : String) :
    get_workdir (pathJoin dir (component_fq_name cid)) =
      dirPre dir ++ "component" ++ cid ++ "_reads" ++ "_assembly_wkdir" := by
  rw [pathJoin_fqname, get_workdir, component_fq_name]
  rw [show dirPre dir ++ ("component" ++ cid ++ "_reads.fq")
      = dirPre dir ++ "component" ++ cid ++ "_reads.fq" from by
    simp [str_append_assoc]]
  rw [show dirPre dir ++ "component" ++ cid ++ "_reads.fq"
      = (dirPre dir ++ "component" ++ cid) ++ "_reads.fq" from rfl]
  rw [splitext_root_reads_fq]

theorem path_fqname_inj (dir : String) (x y : String)
    (h : pathJoin dir (component_fq_name x) = pathJoin dir (component_fq_name y)) :
    x = y := by
  rw [pathJoin_fqname, pathJoin_fqname] at h
  simp only [component_fq_name] at h
  exact str_concat4_inj h

theorem workdir_fqname_inj (dir : String) (c c' : String)
    (h : get_workdir (pathJoin dir (component_fq_name c))
       = get_workdir (pathJoin dir (component_fq_name c'))) : c = c' := by
  rw [get_workdir_fqname, get_workdir_fqname] at h
  exact str_concat5_inj h

/-! ### Workdir preparation -/

theorem isUnder_self (d : String) : isUnder d d = false := by
  rw [isUnder]
  cases h : ((d ++ "/").data).isPrefixOf d.data with
  | false => rfl
  | true =>
    exfalso
    have hp := List.isPrefixOf_iff_prefix.mp h
    have hlen := hp.length_le
    rw [String.data_append] at hlen
    simp at hlen

theorem prepare_workdir_spec (fs : List String) (d : String)
    (hcl : ∀ p ∈ fs, isUnder d p = true → d ∈ fs) :
    d ∈ prepare_workdir fs d ∧ ∀ p ∈ prepare_workdir fs d, isUnder d p = false := by
  refine ⟨?_, ?_⟩
  · rw [prepare_workdir]
    exact List.mem_append.2 (Or.inr (by simp))
  · intro p hp
    rw [prepare_workdir] at hp
    rcases List.mem_append.1 hp with h | h
    · by_cases hc : fs.contains d = true
      · rw [if_pos hc] at h
        have hf := List.mem_filter.1 h
        have hcond := hf.2
        cases hi : isUnder d p with
        | false => rfl
        | true =>
          rw [hi] at hcond
          simp at hcond
      · rw [if_neg hc] at h
        cases hi : isUnder d p with
        | false => rfl
        | true =>
          exact absurd (List.elem_iff.mpr (hcl p h hi)) hc
    · have hpd : p = d := by simpa using h
      rw [hpd]
      exact isUnder_self d

/-! ### Merge-loop lemmas -/

theorem emit_spec (cid lca : String) (recs : List FastaRec) :
    ∀ (count : Nat),
      (emit_component cid lca recs count).1
        = count + (emit_component cid lca recs count).2.length ∧
      (emit_component cid lca recs count).2.map (fun r => r.index)
        = List.range' (count + 1) (emit_component cid lca recs count).2.length ∧
      (emit_component cid lca recs count).2.length
        = (recs.filter (fun r => decide (r.2.length ≠ 0))).length ∧
      ∀ r ∈ (emit_component cid lca recs count).2,
        r.component = cid ∧ r.lca = lca ∧ r.seq.length ≠ 0 := by
  induction recs with
  | nil =>
    intro count
    simp [emit_component]
  | cons x rest ih =>
    intro count
    obtain ⟨ih1, ih2, ih3, ih4⟩ := ih (count + 1)
    obtain ⟨jh1, jh2, jh3, jh4⟩ := ih count
    by_cases hx : x.2.length ≠ 0
    · have hunfold : emit_component cid lca (x :: rest) count
          = ((emit_component cid lca rest (count + 1)).1,
             ⟨count + 1, cid, lca, x.2⟩ :: (emit_component cid lca rest (count + 1)).2) := by
        simp [emit_component, hx]
      rw [hunfold]
      refine ⟨?_, ?_, ?_, ?_⟩
      · simpa [ih1] using by omega
      · simp only [List.map_cons, List.length_cons]
        rw [List.range'_succ, ih2]
      · simp [List.filter_cons, hx, ih3]
      · intro r hr
        rcases List.mem_cons.1 hr with h1 | h1
        · subst h1
          exact ⟨rfl, rfl, hx⟩
        · exact ih4 r h1
    · have hunfold : emit_component cid lca (x :: rest) count
          = emit_component cid lca rest count := by
        simp [emit_component, hx]
      rw [hunfold]
      refine ⟨jh1, jh2, ?_, jh4⟩
      rw [jh3, List.filter_cons]
      simp [hx]

theorem concat_loop_spec (lcaD : List (String × String)) (l : List (String × List FastaRec)) :
    ∀ (lca : String) (count : Nat),
      (concat_loop lcaD l lca count).map (fun r => r.index)
        = List.range' (count + 1) (concat_loop lcaD l lca count).length ∧
      (concat_loop lcaD l lca count).length
        = (l.map (fun p => (p.2.filter (fun r => decide (r.2.length ≠ 0))).length)).sum ∧
      ∀ r ∈ concat_loop lcaD l lca count, r.seq.length ≠ 0 := by
  induction l with
  | nil =>
    intro lca count
    simp [concat_loop]
  | cons p rest ih =>
    intro lca count
    have hunfold : concat_loop lcaD (p :: rest) lca count
        = (emit_component p.1
            (match List.lookup p.1 lcaD with | some v => v | none => lca) p.2 count).2
          ++ concat_loop lcaD rest
            (match List.lookup p.1 lcaD with | some v => v | none => lca)
            (emit_component p.1
              (match List.lookup p.1 lcaD with | some v => v | none => lca) p.2 count).1 :=
      rfl
    obtain ⟨e1, e2, e3, e4⟩ := emit_spec p.1
      (match List.lookup p.1 lcaD with | some v => v | none => lca) p.2 count
    obtain ⟨i1, i2, i3⟩ := ih
      (match List.lookup p.1 lcaD with | some v => v | none => lca)
      (emit_component p.1
        (match List.lookup p.1 lcaD with | some v => v | none => lca) p.2 count).1
    rw [hunfold]
    refine ⟨?_, ?_, ?_⟩
    · rw [List.map_append, e2, i1, List.length_append]
      rw [e1] at i1 ⊢
      have harr : count + (emit_component p.1
          (match List.lookup p.1 lcaD with | some v => v | none => lca) p.2 count).2.length + 1
          = (count + 1) + (emit_component p.1
            (match List.lookup p.1 lcaD with | some v => v | none => lca) p.2 count).2.length := by
        omega
      rw [harr, List.range'_append_1]
      rw [Nat.add_comm ((concat_loop lcaD rest
        (match List.lookup p.1 lcaD with | some v => v | none => lca)
        (count + (emit_component p.1
          (match List.lookup p.1 lcaD with | some v => v | none => lca) p.2 count).2.length)).length)]
    · rw [List.length_append, e3, i2, List.map_cons, List.sum_cons]
    · intro r hr
      rcases List.mem_append.1 hr with h1 | h1
      · exact (e4 r h1).2.2
      · exact i3 r h1

theorem concat_loop_lca_const (lcaD : List (String × String))
    (l : List (String × List FastaRec)) :
    ∀ (lca : String) (count : Nat), (∀ q ∈ l, List.lookup q.1 lcaD = none) →
      ∀ r ∈ concat_loop lcaD l lca count, r.lca = lca := by
  induction l with
  | nil =>
    intro lca count _ r hr
    simp [concat_loop] at hr
  | cons p rest ih =>
    intro lca count h r hr
    have hp : List.lookup p.1 lcaD = none := h p (by simp)
    have hunfold : concat_loop lcaD (p :: rest) lca count
        = (emit_component p.1 lca p.2 count).2
          ++ concat_loop lcaD rest lca (emit_component p.1 lca p.2 count).1 := by
      rw [concat_loop, hp]
    rw [hunfold] at hr
    rcases List.mem_append.1 hr with h1 | h1
    · exact ((emit_spec p.1 lca p.2 count).2.2.2 r h1).2.1
    · exact ih lca _ (fun q hq => h q (List.mem_cons_of_mem _ hq)) r h1

theorem prefix_append_left {l a b : List α} (h : a <+: b) : l ++ a <+: l ++ b := by
  obtain ⟨t, ht⟩ := h
  exact ⟨t, by rw [List.append_assoc, ht]⟩

theorem concat_loop_take_prefix (lcaD : List (String × String))
    (l : List (String × List FastaRec)) :
    ∀ (n : Nat) (lca : String) (count : Nat),
      concat_loop lcaD (l.take n) lca count <+: concat_loop lcaD l lca count := by
  induction l with
  | nil =>
    intro n lca count
    simp [concat_loop]
  | cons p rest ih =>
    intro n lca count
    cases n with
    | zero =>
      rw [List.take_zero]
      exact List.nil_prefix
    | succ m =>
      rw [List.take_succ_cons]
      exact prefix_append_left (ih m _ _)

theorem mem_join_infix {l : List FastqRead} {r : FastqRead} (h : r ∈ l) :
    (fastqRecord r).data <:+: (String.join (l.map fastqRecord)).data := by
  rw [String.join_eq]
  exact List.infix_of_mem_flatten
    (List.mem_map.2 ⟨fastqRecord r, List.mem_map.2 ⟨r, h, rfl⟩, rfl⟩)

/-! ### Pool and task lemmas -/

theorem starmap_ok_iff (f : α → Except String β) (l : List α) :
    (∃ r, starmap f l = Except.ok r) ↔ ∀ x ∈ l, ∃ y, f x = Except.ok y := by
  induction l with
  | nil => simp [starmap]
  | cons a rest ih =>
    constructor
    · rintro ⟨r, hr⟩
      rw [starmap] at hr
      cases hf : f a with
      | error e =>
        rw [hf] at hr
        cases hr
      | ok b =>
        rw [hf] at hr
        cases hs : starmap f rest with
        | error e =>
          rw [hs] at hr
          cases hr
        | ok bl =>
          intro x hx
          rcases List.mem_cons.1 hx with h1 | h1
          · exact ⟨b, h1 ▸ hf⟩
          · exact (ih.1 ⟨bl, hs⟩) x h1
    · intro h
      obtain ⟨b, hb⟩ := h a (by simp)
      obtain ⟨bl, hbl⟩ := ih.2 (fun x hx => h x (List.mem_cons_of_mem _ hx))
      exact ⟨b :: bl, by rw [starmap, hb, hbl]⟩

theorem starmap_ok_map (f : α → Except String β) (g : α → β)
    (hg : ∀ x y, f x = Except.ok y → y = g x) (l : List α) :
    ∀ (r : List β), starmap f l = Except.ok r → r = l.map g := by
  induction l with
  | nil =>
    intro r hr
    rw [starmap] at hr
    cases hr
    rfl
  | cons a rest ih =>
    intro r hr
    rw [starmap] at hr
    cases hf : f a with
    | error e =>
      rw [hf] at hr
      cases hr
    | ok b =>
      rw [hf] at hr
      cases hs : starmap f rest with
      | error e =>
        rw [hs] at hr
        cases hr
      | ok bl =>
        rw [hs] at hr
        cases hr
        rw [List.map_cons, ← hg a b hf, ih bl hs]

theorem assemble_component_ok_iff (env : Env) (w b fq wk corr : String) (cpu : Nat) :
    (∃ y, assemble_component env w b fq wk corr cpu = Except.ok y) ↔
      (env.isFile fq = true ∧
       env.exitCode (assembly_cmd_line w b fq wk corr cpu) = 0) := by
  rw [assemble_component]
  by_cases h1 : env.isFile fq = false
  · rw [if_pos h1]
    simp [h1]
  · rw [if_neg h1]
    have h1' : env.isFile fq = true := by
      cases hf : env.isFile fq
      · exact absurd hf h1
      · rfl
    by_cases h2 : env.exitCode (assembly_cmd_line w b fq wk corr cpu) ≠ 0
    · rw [if_pos h2]
      simp [h1', h2]
    · rw [if_neg h2]
      push_neg at h2
      simp [h1', h2]

theorem assemble_component_ok_val (env : Env) (w b fq wk corr : String) (cpu : Nat)
    {y : String} (h : assemble_component env w b fq wk corr cpu = Except.ok y) :
    y = pathJoin wk "assembly.fasta" := by
  rw [assemble_component] at h
  split at h
  · cases h
  · split at h
    · cases h
    · cases h
      rfl

theorem assembled_components_ok (env : Env) (w b corr : String)
    (fqlist : List (String × String)) :
    ∀ (l : List (String × String)),
      assembled_components_fasta env w b corr fqlist = Except.ok l →
      l = fqlist.map (fun p => (p.1, pathJoin (get_workdir p.2) "assembly.fasta")) := by
  intro l h
  rw [assembled_components_fasta] at h
  cases hs : starmap
      (fun fq => assemble_component env w b fq (get_workdir fq) corr 1)
      (fqlist.map (fun p => p.2)) with
  | error e =>
    rw [hs] at h
    cases h
  | ok fl =>
    rw [hs] at h
    cases h
    have hfl := starmap_ok_map
      (fun fq => assemble_component env w b fq (get_workdir fq) corr 1)
      (fun fq => pathJoin (get_workdir fq) "assembly.fasta")
      (fun x y hy => assemble_component_ok_val env w b x (get_workdir x) corr 1 hy)
      (fqlist.map (fun p => p.2)) fl hs
    rw [hfl, List.map_map, List.zip_map']
    rfl

/-! ### Claim theorems -/

/-- C1: the merge step is supposed to label every contig with its own
component's taxon entry, or the `NULL` sentinel when the component has no
entry.  The code instead keeps the previous iteration's label: with taxon
table `{c1 ↦ taxA}` and components `c1`, `c2` (where `c2` has no entry), the
contig of `c2` is written with `lca=taxA` — a stale neighbouring label —
although `c2` is absent from the table. -/
theorem concat_lca_stale_label_bug :
    concat_components_fasta_with_lca
        [("c1", [("h1", "ACGT")]), ("c2", [("h2", "GGGG")])] [("c1", "taxA")]
      = [⟨1, "c1", "taxA", "ACGT"⟩, ⟨2, "c2", "taxA", "GGGG"⟩] ∧
    List.lookup "c2" [("c1", "taxA")] = (none : Option String) := by
  constructor
  · rfl
  · rfl

/-- C2: across the whole merged output the global contig indices are exactly
`1, 2, …, N` (`List.range' 1 N`) where `N` is the number of non-empty
sequences over all per-component assembly outputs; empty sequences are
neither counted nor emitted. -/
theorem contig_indices_contiguous (assembled : List (String × List FastaRec))
    (lcaDict : List (String × String)) :
    (concat_components_fasta_with_lca assembled lcaDict).map (fun r => r.index)
      = List.range' 1 (concat_components_fasta_with_lca assembled lcaDict).length ∧
    (concat_components_fasta_with_lca assembled lcaDict).length
      = (assembled.map
          (fun p => (p.2.filter (fun r => decide (r.2.length ≠ 0))).length)).sum ∧
    ∀ r ∈ concat_components_fasta_with_lca assembled lcaDict, r.seq.length ≠ 0 := by
  have h := concat_loop_spec lcaDict assembled "NULL" 0
  simpa [concat_components_fasta_with_lca] using h

/-- Witness for C2 at a concrete input: one component whose assembly yields a
non-empty and an empty record. -/
theorem contig_indices_contiguous_witness :
    (concat_components_fasta_with_lca
        [("c1", [("h1", "ACGT"), ("h2", "")])] []).map (fun r => r.index)
      = List.range' 1 (concat_components_fasta_with_lca
          [("c1", [("h1", "ACGT"), ("h2", "")])] []).length :=
  (contig_indices_contiguous [("c1", [("h1", "ACGT"), ("h2", "")])] []).1

/-- C4: the assignment loader is a single-valued map; for every read id the
retained value is the one of the last row whose component field is not the
`NULL` sentinel, and rows carrying the sentinel are excluded from the mapping
entirely (the lookup equals a last-wins lookup over the sentinel-filtered
rows). -/
theorem assignment_mapping_last_wins (rows : List AssignRow) (k : String) :
    List.lookup k (read_component_dict rows) =
      List.lookup k ((rows.filterMap
        (fun t => if t.2.2 = "NULL" then none else some (t.1, t.2.2))).reverse) := by
  rw [read_component_dict_eq, lookup_insAll]
  cases h : List.lookup k (rows.filterMap
      (fun t => if t.2.2 = "NULL" then none else some (t.1, t.2.2))).reverse <;>
    simp [h]

/-- C5: the taxon-table loader retains exactly the lines splitting into two
whitespace-separated fields, mapping the first to the second (last write
wins); lines with any other field count are skipped silently and do not
affect the mapping. -/
theorem taxon_table_two_columns (lines : List (List String)) (k : String) :
    List.lookup k (extract_lca_by_component lines) =
      List.lookup k ((lines.filterMap
        (fun t => match t with | [a, b] => some (a, b) | _ => none)).reverse) := by
  rw [extract_lca_eq, lookup_insAll]
  cases h : List.lookup k (lines.filterMap
      (fun t => match t with | [a, b] => some (a, b) | _ => none)).reverse <;>
    simp [h]

/-- C7: each assembly task's working directory is empty (no descendant paths
remain) after the delete-recreate preparation, provided the filesystem is
parent-closed below the workdir; and distinct component ids derive distinct
working directories, so no two tasks share one. -/
theorem workdir_fresh_and_disjoint :
    (∀ (fs : List String) (d : String),
       (∀ p ∈ fs, isUnder d p = true → d ∈ fs) →
       d ∈ prepare_workdir fs d ∧ ∀ p ∈ prepare_workdir fs d, isUnder d p = false) ∧
    (∀ (dir c c' : String), c ≠ c' →
       get_workdir (pathJoin dir (component_fq_name c))
         ≠ get_workdir (pathJoin dir (component_fq_name c'))) := by
  refine ⟨fun fs d hcl => prepare_workdir_spec fs d hcl, ?_⟩
  intro dir c c' hne h
  exact hne (workdir_fqname_inj dir c c' h)

/-- Witness for C7 at concrete inputs: a stale workdir with a leftover file,
and two distinct component ids. -/
theorem workdir_fresh_and_disjoint_witness :
    ("wd" ∈ prepare_workdir ["wd", "wd/x", "other"] "wd") ∧
    get_workdir (pathJoin "out" (component_fq_name "1"))
      ≠ get_workdir (pathJoin "out" (component_fq_name "2")) :=
  ⟨(workdir_fresh_and_disjoint.1 ["wd", "wd/x", "other"] "wd" (by decide)).1,
   workdir_fresh_and_disjoint.2 "out" "1" "2" (by decide)⟩

/-- C8: materialization is idempotent: running `save_components` a second
time with the same partition and directory returns the same path mapping and
leaves every file with byte-identical content. -/
theorem save_components_idempotent (b : List (String × List FastqRead)) (dir : String)
    (fs : FileSys) :
    (save_components b dir (save_components b dir fs).2).1
        = (save_components b dir fs).1 ∧
    ∀ p : String,
      List.lookup p (save_components b dir (save_components b dir fs).2).2
        = List.lookup p (save_components b dir fs).2 := by
  constructor
  · rw [save_components_eq b dir ((save_components b dir fs).2),
      save_components_eq b dir fs]
  · intro p
    rw [save_components_eq b dir ((save_components b dir fs).2),
      save_components_eq b dir fs]
    rw [lookup_insAll, lookup_insAll]
    cases h : List.lookup p (b.map (fun p =>
        (pathJoin dir (component_fq_name p.1),
         String.join (p.2.map fastqRecord)))).reverse <;>
      simp [h]

/-- C10: the sentinel of the public interface is the literal `"NULL"`: an
assignment row is folded into the read→component mapping exactly when its
third field differs from `"NULL"`, and while no component seen so far in the
merge has a taxon-table entry, every contig written carries `lca=NULL` (and
those contigs are a prefix of the real merged output). -/
theorem null_sentinel_shared :
    (∀ (rows : List AssignRow) (t0 t1 t2 : String),
       read_component_dict (rows ++ [(t0, t1, t2)])
         = if t2 = "NULL" then read_component_dict rows
           else dictInsert t0 t2 (read_component_dict rows)) ∧
    (∀ (lcaD : List (String × String)) (assembled : List (String × List FastaRec))
       (n : Nat),
       (∀ q ∈ assembled.take n, List.lookup q.1 lcaD = none) →
       (∀ r ∈ concat_components_fasta_with_lca (assembled.take n) lcaD,
          r.lca = "NULL") ∧
       concat_components_fasta_with_lca (assembled.take n) lcaD
         <+: concat_components_fasta_with_lca assembled lcaD) := by
  constructor
  · intro rows t0 t1 t2
    rw [read_component_dict, read_component_dict, List.foldl_append,
      List.foldl_cons, List.foldl_nil]
    by_cases h : t2 = "NULL" <;> simp [h]
  · intro lcaD assembled n h
    exact ⟨concat_loop_lca_const lcaD (assembled.take n) "NULL" 0 h,
           concat_loop_take_prefix lcaD assembled n "NULL" 0⟩

/-- Witness for C10 at a concrete input: a single component absent from an
empty taxon table. -/
theorem null_sentinel_shared_witness :
    concat_components_fasta_with_lca ([("c1", [("h1", "ACGT")])].take 1) []
      <+: concat_components_fasta_with_lca [("c1", [("h1", "ACGT")])] [] :=
  (null_sentinel_shared.2 [] [("c1", [("h1", "ACGT")])] 1 (by decide)).2

/-- C9: the orchestrator pairs results with components in task submission
order: on success, the component-to-fasta association equals the components
list mapped in place, each component id paired with the assembly output path
derived from that component's own read file; the merge then consumes this
list in the same (partition-discovery) order. -/
theorem pool_results_in_submission_order (env : Env) (w b corr : String)
    (fqlist : List (String × String)) (l : List (String × String))
    (h : assembled_components_fasta env w b corr fqlist = Except.ok l) :
    l = fqlist.map (fun p => (p.1, pathJoin (get_workdir p.2) "assembly.fasta")) :=
  assembled_components_ok env w b corr fqlist l h

/-- Witness for C9 at a concrete input: one component, all-success
environment. -/
theorem pool_results_in_submission_order_witness :
    [("c1", "wd/componentc1_reads_assembly_wkdir/assembly.fasta")]
      = [("c1", "wd/componentc1_reads.fq")].map
          (fun p => (p.1, pathJoin (get_workdir p.2) "assembly.fasta")) :=
  pool_results_in_submission_order envOk "w" "b" "no"
    [("c1", "wd/componentc1_reads.fq")]
    [("c1", "wd/componentc1_reads_assembly_wkdir/assembly.fasta")] (by rfl)

/-- C6: the pipeline produces the merged output exactly when every
per-component task finds its input read file and the external assembler
exits with status 0; a missing file or a non-zero exit aborts the whole run
(the `Except.error` branch), so the existence of the merged output implies
every task succeeded. -/
theorem assembly_failure_aborts_pipeline (env : Env) (w b : String)
    (fastq : List FastqRead) (rows : List AssignRow) (lcaLines : List (List String))
    (wd corr : String) (fs : FileSys) :
    (∃ out, assemble_all_components env w b fastq rows lcaLines wd corr fs
        = Except.ok out) ↔
      ∀ p ∈ (save_components (extract_reads_by_component fastq rows) wd fs).1,
        env.isFile p.2 = true ∧
        env.exitCode (assembly_cmd_line w b p.2 (get_workdir p.2) corr 1) = 0 := by
  have hstep : (∃ out, assemble_all_components env w b fastq rows lcaLines wd corr fs
      = Except.ok out)
      ↔ (∃ l, assembled_components_fasta env w b corr
          (save_components (extract_reads_by_component fastq rows) wd fs).1
            = Except.ok l) := by
    rw [assemble_all_components]
    cases ha : assembled_components_fasta env w b corr
        (save_components (extract_reads_by_component fastq rows) wd fs).1 with
    | error e => simp [ha]
    | ok l => simp [ha]
  rw [hstep]
  have hstep2 : (∃ l, assembled_components_fasta env w b corr
      (save_components (extract_reads_by_component fastq rows) wd fs).1
        = Except.ok l)
      ↔ (∃ r, starmap
          (fun fq => assemble_component env w b fq (get_workdir fq) corr 1)
          (((save_components (extract_reads_by_component fastq rows) wd fs).1).map
            (fun p => p.2)) = Except.ok r) := by
    rw [assembled_components_fasta]
    cases hs : starmap
        (fun fq => assemble_component env w b fq (get_workdir fq) corr 1)
        (((save_components (extract_reads_by_component fastq rows) wd fs).1).map
          (fun p => p.2)) with
    | error e => simp [hs]
    | ok fl => simp [hs]
  rw [hstep2, starmap_ok_iff]
  constructor
  · intro h p hp
    exact (assemble_component_ok_iff env w b p.2 (get_workdir p.2) corr 1).1
      (h p.2 (List.mem_map.2 ⟨p, hp, rfl⟩))
  · intro h fq hfq
    obtain ⟨p, hp, hpe⟩ := List.mem_map.1 hfq
    subst hpe
    exact (assemble_component_ok_iff env w b p.2 (get_workdir p.2) corr 1).2 (h p hp)

/-- Witness for C6 at a concrete input: a one-read, one-component run in the
all-success environment produces a merged output. -/
theorem assembly_failure_aborts_pipeline_witness :
    ∃ out, assemble_all_components envOk "w" "b" [("r1", "A", "I")]
      [("r1", "m", "c1")] [] "wd" "no" [] = Except.ok out :=
  (assembly_failure_aborts_pipeline envOk "w" "b" [("r1", "A", "I")]
    [("r1", "m", "c1")] [] "wd" "no" []).mpr (by decide)

/-- C3: a read whose id has a (non-sentinel) entry in the assignment mapping
is placed in exactly the bucket of its assigned component (membership in a
bucket is equivalent to being assigned to it), its component's materialized
file content is exactly the concatenation of that bucket's records, and the
read's 4-line record — sequence and quality verbatim — occurs inside that
content; a read with no entry is in no bucket. -/
theorem read_partition_exact (fastq : List FastqRead) (rows : List AssignRow)
    (dir : String) (fs : FileSys) (r : FastqRead) (hr : r ∈ fastq) :
    (∀ c, r ∈ (List.lookup c (extract_reads_by_component fastq rows)).getD [] ↔
       List.lookup r.1 (read_component_dict rows) = some c) ∧
    (∀ c, List.lookup r.1 (read_component_dict rows) = some c →
       List.lookup (pathJoin dir (component_fq_name c))
           (save_components (extract_reads_by_component fastq rows) dir fs).2 =
         some (String.join
           (((List.lookup c (extract_reads_by_component fastq rows)).getD []).map
             fastqRecord)) ∧
       (fastqRecord r).data <:+:
         (String.join
           (((List.lookup c (extract_reads_by_component fastq rows)).getD []).map
             fastqRecord)).data) := by
  constructor
  · intro c
    rw [extract_reads_lookup]
    by_cases hsel : fastq.filter
        (fun x => List.lookup x.1 (read_component_dict rows) == some c) = []
    · rw [if_pos hsel]
      simp only [Option.getD_none]
      constructor
      · intro hm
        exact absurd hm (List.not_mem_nil r)
      · intro hs
        have hmem : r ∈ fastq.filter
            (fun x => List.lookup x.1 (read_component_dict rows) == some c) :=
          List.mem_filter.2 ⟨hr, by simp [hs]⟩
        rw [hsel] at hmem
        exact absurd hmem (List.not_mem_nil r)
    · rw [if_neg hsel]
      simp only [Option.getD_some]
      rw [List.mem_filter]
      constructor
      · intro hm
        exact eq_of_beq hm.2
      · intro hs
        exact ⟨hr, by simp [hs]⟩
  · intro c hc
    have hrsel : r ∈ fastq.filter
        (fun x => List.lookup x.1 (read_component_dict rows) == some c) :=
      List.mem_filter.2 ⟨hr, by simp [hc]⟩
    have hsel : fastq.filter
        (fun x => List.lookup x.1 (read_component_dict rows) == some c) ≠ [] := by
      intro he
      rw [he] at hrsel
      exact absurd hrsel (List.not_mem_nil r)
    have hlook : List.lookup c (extract_reads_by_component fastq rows)
        = some (fastq.filter
            (fun x => List.lookup x.1 (read_component_dict rows) == some c)) := by
      rw [extract_reads_lookup, if_neg hsel]
    rw [save_components_eq]
    rw [lookup_insAll]
    have hm := lookup_map_keyed (path_fqname_inj dir)
      (fun lst : List FastqRead => String.join (lst.map fastqRecord))
      ((extract_reads_by_component fastq rows).reverse) c
    rw [lookup_reverse_of_nodup (extract_keys_nodup fastq rows) c, hlook] at hm
    rw [← List.map_reverse, hm]
    rw [hlook]
    exact ⟨rfl, mem_join_infix hrsel⟩

/-- Witness for C3 at a concrete input: a single assigned read. -/
theorem read_partition_exact_witness :
    ("r1", "A", "I") ∈ (List.lookup "c1"
      (extract_reads_by_component [("r1", "A", "I")] [("r1", "m", "c1")])).getD [] :=
  ((read_partition_exact [("r1", "A", "I")] [("r1", "m", "c1")] "wd" []
    ("r1", "A", "I") (by decide)).1 "c1").mpr (by decide)

end ComponentsAssembly
